import Mathlib

set_option linter.unusedVariables false

/-!
Shallow embedding of the word-model selection strategies of
`my_model_selectors.py` (classes `ModelSelector`, `SelectorConstant`,
`SelectorBIC`, `SelectorDIC`, `SelectorCV`) and of the scoring loop of
`my_recognizer.py` (function `recognize`), together with proofs of the
behavioural properties of these functions.

Modelling choices, mirroring the source:
* Python floats produced by `model.score` are modelled as exact rationals;
  the special values `float("inf")`, `float("-inf")` and the `nan` produced
  by `np.mean([])` are modelled by the dedicated type `EFloat` whose strict
  comparison is IEEE-like (`nan` compares false against everything).
* The external `hmmlearn` collaborators (`GaussianHMM(...).fit` and
  `model.score`) are oracles stored in the `ModelSelector` state: `fitOk`
  says whether fitting at a state count on a data handle succeeds, and
  `scoreVal` gives the log-likelihood a fitted model returns on a data
  handle (`none` when `score` raises).  Both are functions, so they are
  deterministic at the fixed `random_state`, which is exactly the trainer
  contract the source relies on.
* Exception flow (`try`/`except`) is modelled with `Except Unit`.
-/

/-- A Python float as manipulated by the selector loops: an exact rational,
or one of the special values `inf`, `-inf`, `nan`. -/
inductive EFloat where
  | nan : EFloat
  | ninf : EFloat
  | pinf : EFloat
  | fin : ℚ → EFloat
deriving DecidableEq, Repr

/-- IEEE-style strict `<` on Python floats: any comparison against `nan`
is false; `-inf` is below and `inf` above every finite value. -/
def EFloat.lt : EFloat → EFloat → Bool
  | .nan, _ => false
  | _, .nan => false
  | .ninf, .ninf => false
  | .ninf, _ => true
  | _, .ninf => false
  | .pinf, _ => false
  | .fin _, .pinf => true
  | .fin a, .fin b => decide (a < b)

/-- IEEE-style subtraction on Python floats (`nan` absorbs; `inf - inf = nan`). -/
def EFloat.sub : EFloat → EFloat → EFloat
  | .nan, _ => .nan
  | _, .nan => .nan
  | .pinf, .pinf => .nan
  | .ninf, .ninf => .nan
  | .pinf, _ => .pinf
  | .ninf, _ => .ninf
  | .fin _, .pinf => .ninf
  | .fin _, .ninf => .pinf
  | .fin a, .fin b => .fin (a - b)

/-- `np.mean` on a list of floats: the arithmetic mean, and `nan` on the
empty list (as `np.mean([])` returns `nan` with a runtime warning). -/
def npMean : List ℚ → EFloat
  | [] => .nan
  | a :: l => .fin ((a :: l).sum / ((a :: l).length : ℚ))

/-- A trained `hmmlearn` `GaussianHMM`, identified by the hidden-state count
it was constructed with (`n_components`) and the data it was fitted on
(`.fit(X, lengths)`); scoring behaviour is supplied by the environment's
`scoreVal` oracle. -/
structure GaussianHMM (D : Type) where
  n_components : ℕ
  trainData : D
deriving DecidableEq, Repr

/-- Decidable equality for exception results, used to evaluate concrete runs. -/
instance {e a : Type} [DecidableEq e] [DecidableEq a] : DecidableEq (Except e a)
  | .error x, .error y =>
      if h : x = y then isTrue (by rw [h]) else isFalse (by intro hc; cases hc; exact h rfl)
  | .error x, .ok y => isFalse (by intro hc; cases hc)
  | .ok x, .error y => isFalse (by intro hc; cases hc)
  | .ok x, .ok y =>
      if h : x = y then isTrue (by rw [h]) else isFalse (by intro hc; cases hc; exact h rfl)

/-- The state of the `ModelSelector` base class (`my_model_selectors.py`),
abstracted over a type `D` of `(featureMatrix, lengths)` data handles.

* `hwords` is `self.hwords = all_word_Xlengths` as an insertion-ordered
  association list (Python dicts iterate in insertion order);
* `thisData` is `self.X, self.lengths`, `sequencesLen` is
  `len(self.sequences)`, `numFeatures` is `len(self.X[0])`;
* `logLenX` is the external real value `np.log(len(self.X))`;
* `fitOk n d` tells whether `GaussianHMM(n_components=n, covariance_type="diag",
  n_iter=1000, random_state=self.random_state).fit(d)` succeeds;
* `scoreVal n d t` is the value of `model.score(t)` for the model fitted at
  `n` states on data `d`, or `none` when `score` raises;
* `cvFold1`/`cvFold2` are the `(combine_sequences(train), combine_sequences(test))`
  data of the two folds `KFold(n_splits=2)` produces on `self.sequences`. -/
structure ModelSelector (D : Type) where
  hwords : List (String × D)
  this_word : String
  thisData : D
  sequencesLen : ℕ
  n_constant : ℕ
  min_n_components : ℕ
  max_n_components : ℕ
  random_state : ℕ
  numFeatures : ℕ
  logLenX : ℚ
  fitOk : ℕ → D → Bool
  scoreVal : ℕ → D → D → Option ℚ
  cvFold1 : D × D
  cvFold2 : D × D

/-- `ModelSelector.base_model`: fit a `GaussianHMM` with `num_states` hidden
states on the word's whole data `self.X, self.lengths`; the `try/except`
turns a fit failure into `None`. -/
def ModelSelector.base_model {D : Type} (env : ModelSelector D) (num_states : ℕ) :
    Option (GaussianHMM D) :=
  if env.fitOk num_states env.thisData then some ⟨num_states, env.thisData⟩ else none

/-- The candidate list of `range(self.min_n_components, self.max_n_components + 1)`
used by `SelectorBIC.select` and `SelectorCV.select` (inclusive upper bound). -/
def ModelSelector.searchRange {D : Type} (env : ModelSelector D) : List ℕ :=
  List.range' env.min_n_components (env.max_n_components + 1 - env.min_n_components)

/-- The candidate list of `range(self.min_n_components, self.max_n_components)`
used by `SelectorDIC.select` (exclusive upper bound). -/
def ModelSelector.dicRange {D : Type} (env : ModelSelector D) : List ℕ :=
  List.range' env.min_n_components (env.max_n_components - env.min_n_components)

/-- `SelectorConstant.select`: always fit and return the model at `self.n_constant`. -/
def SelectorConstant.select {D : Type} (env : ModelSelector D) : Option (GaussianHMM D) :=
  env.base_model env.n_constant

/-- The free-parameter count of `SelectorBIC.score`:
`p = (num_states**2) + 2*(len(self.X[0])*(num_states)) - 1` (Python ints). -/
def SelectorBIC.pParams {D : Type} (env : ModelSelector D) (num_states : ℕ) : ℤ :=
  (num_states : ℤ) ^ 2 + 2 * ((env.numFeatures : ℤ) * (num_states : ℤ)) - 1

/-- `SelectorBIC.score(num_states)`: fit via `base_model`, score on the word's
own data, and return `(-2*logL + p*logN, model)`.  A fit failure makes
`model` `None`, so the subsequent `model.score` raises (`.error`); a raising
`score` call is also `.error`. -/
def SelectorBIC.score {D : Type} (env : ModelSelector D) (num_states : ℕ) :
    Except Unit (ℚ × GaussianHMM D) :=
  match env.base_model num_states with
  | none => .error ()
  | some model =>
    match env.scoreVal model.n_components model.trainData env.thisData with
    | none => .error ()
    | some logL =>
        .ok (-2 * logL + (SelectorBIC.pParams env num_states : ℚ) * env.logLenX, model)

/-- The `for num_states in range(...)` loop of `SelectorBIC.select`, carrying
`(best_score, best_model)` initialised to `(float("inf"), None)` and updating
only on strict improvement `score < best_score`.  Any exception aborts the
whole loop. -/
def SelectorBIC.loop {D : Type} (env : ModelSelector D) :
    List ℕ → EFloat × Option (GaussianHMM D) → Except Unit (EFloat × Option (GaussianHMM D))
  | [], acc => .ok acc
  | n :: rest, (best, bm) =>
    match SelectorBIC.score env n with
    | .error e => .error e
    | .ok (s, model) =>
        if EFloat.lt (.fin s) best then SelectorBIC.loop env rest (.fin s, some model)
        else SelectorBIC.loop env rest (best, bm)

/-- `SelectorBIC.select`: run the search loop over the inclusive range; on any
exception fall back to `base_model(self.n_constant)`. -/
def SelectorBIC.select {D : Type} (env : ModelSelector D) : Option (GaussianHMM D) :=
  match SelectorBIC.loop env env.searchRange (.pinf, none) with
  | .ok acc => acc.2
  | .error _ => env.base_model env.n_constant

/-- The BIC value `-2 * logL + p * log(N)` of the claim, expressed with the
log-likelihood function `L` asserted for the environment's score oracle. -/
def bicScore {D : Type} (env : ModelSelector D) (L : ℕ → ℚ) (n : ℕ) : ℚ :=
  -2 * L n + (SelectorBIC.pParams env n : ℚ) * env.logLenX

/-- The inner loop of `SelectorDIC.select`: score the fitted model on every
vocabulary word other than `self.this_word`, in `hwords` iteration order;
any raising `model.score` aborts (`.error`). -/
def SelectorDIC.otherScores {D : Type} (env : ModelSelector D) (model : GaussianHMM D) :
    List (String × D) → Except Unit (List ℚ)
  | [] => .ok []
  | p :: rest =>
    if p.1 ≠ env.this_word then
      match env.scoreVal model.n_components model.trainData p.2 with
      | none => .error ()
      | some s => (SelectorDIC.otherScores env model rest).map (fun l => s :: l)
    else SelectorDIC.otherScores env model rest

/-- One candidate evaluation of `SelectorDIC.select`'s loop body:
`model = base_model(num_states)`; cross-scores on all other words;
`mean = np.mean(...)`; `score = model.score(self.X, self.lengths) - mean`.
A `None` model makes every `model.score` call raise, hence `.error`. -/
def SelectorDIC.scoreE {D : Type} (env : ModelSelector D) (num_states : ℕ) :
    Except Unit (EFloat × GaussianHMM D) :=
  match env.base_model num_states with
  | none => .error ()
  | some model =>
    match SelectorDIC.otherScores env model env.hwords with
    | .error e => .error e
    | .ok arr =>
      match env.scoreVal model.n_components model.trainData env.thisData with
      | none => .error ()
      | some own => .ok (EFloat.sub (.fin own) (npMean arr), model)

/-- The `for num_states in range(...)` loop of `SelectorDIC.select`, carrying
`(best_score, best_model)` initialised to `(float("-inf"), None)` and
updating only on strict improvement `score > best_score`. -/
def SelectorDIC.loop {D : Type} (env : ModelSelector D) :
    List ℕ → EFloat × Option (GaussianHMM D) → Except Unit (EFloat × Option (GaussianHMM D))
  | [], acc => .ok acc
  | n :: rest, (best, bm) =>
    match SelectorDIC.scoreE env n with
    | .error e => .error e
    | .ok (s, model) =>
        if EFloat.lt best s then SelectorDIC.loop env rest (s, some model)
        else SelectorDIC.loop env rest (best, bm)

/-- `SelectorDIC.select`: run the search loop over the exclusive range
`range(self.min_n_components, self.max_n_components)`; on any exception fall
back to `base_model(self.n_constant)`. -/
def SelectorDIC.select {D : Type} (env : ModelSelector D) : Option (GaussianHMM D) :=
  match SelectorDIC.loop env env.dicRange (.ninf, none) with
  | .ok acc => acc.2
  | .error _ => env.base_model env.n_constant

/-- The word-data handles of all vocabulary words other than the target, in
`hwords` iteration order. -/
def othersData {D : Type} (env : ModelSelector D) : List D :=
  (env.hwords.filter (fun p => decide (p.1 ≠ env.this_word))).map Prod.snd

/-- The DIC value of the claim: the model's log-likelihood on its own word's
data minus the mean of its log-likelihoods on every other word's data, with
`Own n` and `OS n d` the values asserted for the score oracle. -/
def dicVal {D : Type} (env : ModelSelector D) (Own : ℕ → ℚ) (OS : ℕ → D → ℚ) (n : ℕ) : ℚ :=
  Own n - ((othersData env).map (OS n)).sum / ((othersData env).length : ℚ)

/-- `SelectorCV.score(num_states)`: `KFold(n_splits=2)` raises when the word
has fewer than 2 sequences; otherwise, for each of the two folds, fit on the
combined training sequences (a raising fit aborts) and score on the combined
test sequences, and return `np.mean` of the two fold scores. -/
def SelectorCV.scoreE {D : Type} (env : ModelSelector D) (num_states : ℕ) :
    Except Unit ℚ :=
  if env.sequencesLen < 2 then .error ()
  else
    match (if env.fitOk num_states env.cvFold1.1 then
             env.scoreVal num_states env.cvFold1.1 env.cvFold1.2 else none) with
    | none => .error ()
    | some s1 =>
      match (if env.fitOk num_states env.cvFold2.1 then
               env.scoreVal num_states env.cvFold2.1 env.cvFold2.2 else none) with
      | none => .error ()
      | some s2 => .ok ((s1 + s2) / 2)

/-- The mean held-out log-likelihood of the two cross-validation folds. -/
def cvVal (S1 S2 : ℕ → ℚ) (n : ℕ) : ℚ := (S1 n + S2 n) / 2

/-- The `for num_states in range(...)` loop of `SelectorCV.select`, carrying
`(best_score, best_states)` initialised to `(float("-inf"), 3)`. -/
def SelectorCV.loop {D : Type} (env : ModelSelector D) :
    List ℕ → EFloat × ℕ → Except Unit (EFloat × ℕ)
  | [], acc => .ok acc
  | n :: rest, (best, bs) =>
    match SelectorCV.scoreE env n with
    | .error e => .error e
    | .ok s =>
        if EFloat.lt best (.fin s) then SelectorCV.loop env rest (.fin s, n)
        else SelectorCV.loop env rest (best, bs)

/-- `SelectorCV.select`: run the search loop over the inclusive range, then
refit at the chosen state count on the word's entire data via
`base_model(best_states)`; on any exception fall back to
`base_model(self.n_constant)`. -/
def SelectorCV.select {D : Type} (env : ModelSelector D) : Option (GaussianHMM D) :=
  match SelectorCV.loop env env.searchRange (.ninf, 3) with
  | .ok acc => env.base_model acc.2
  | .error _ => env.base_model env.n_constant

/-- The entry `recognize` stores in `word_probabilities` for one
`(train_word, model)` pair: the score on success, `float("-inf")` when
`model.score` raises. -/
def entryOf {μ D : Type} (sc : μ → D → Option ℚ) (x : D) (wm : String × μ) :
    String × EFloat :=
  match sc wm.2 x with
  | some s => (wm.1, .fin s)
  | none => (wm.1, .ninf)

/-- The body of `recognize`'s inner loop over `models.items()`: record the
score (or the `-inf` sentinel) in the table, and update
`(best_score, best_guess)` only when a successful score strictly exceeds the
current best. -/
def recogStep {μ D : Type} (sc : μ → D → Option ℚ) (x : D)
    (acc : List (String × EFloat) × EFloat × Option String) (wm : String × μ) :
    List (String × EFloat) × EFloat × Option String :=
  match acc, sc wm.2 x with
  | (tbl, best, bg), some s =>
      if EFloat.lt best (.fin s) then (tbl ++ [(wm.1, .fin s)], .fin s, some wm.1)
      else (tbl ++ [(wm.1, .fin s)], best, bg)
  | (tbl, best, bg), none => (tbl ++ [(wm.1, .ninf)], best, bg)

/-- Score one test item against every word model: the completed
`word_probabilities` table together with the final `(best_score, best_guess)`. -/
def recognizeItem {μ D : Type} (sc : μ → D → Option ℚ) (models : List (String × μ))
    (x : D) : List (String × EFloat) × EFloat × Option String :=
  models.foldl (recogStep sc x) ([], .ninf, none)

/-- `recognize(models, test_set)` of `my_recognizer.py`: iterate over the test
items in order, score each against every model, and append the completed score
table and the best guess to the two output lists. -/
def recognize {μ D : Type} (sc : μ → D → Option ℚ) (models : List (String × μ))
    (test_set : List D) : List (List (String × EFloat)) × List (Option String) :=
  test_set.foldl
    (fun acc x =>
      let r := recognizeItem sc models x
      (acc.1 ++ [r.1], acc.2 ++ [r.2.2]))
    ([], [])

/-! ### Concrete test environments (data handles are natural numbers) -/

/-- Log-likelihoods for the BIC test environment. -/
def LC1 : ℕ → ℚ := fun n => if n = 2 then -10 else -20

/-- A concrete word environment where every fit and score succeeds and the
BIC values over the range `[2, 3]` are `27` and `54`. -/
def envC1 : ModelSelector ℕ where
  hwords := [("A", 0)]
  this_word := "A"
  thisData := 0
  sequencesLen := 2
  n_constant := 3
  min_n_components := 2
  max_n_components := 3
  random_state := 14
  numFeatures := 1
  logLenX := 1
  fitOk := fun _ _ => true
  scoreVal := fun n _ _ => some (LC1 n)
  cvFold1 := (1, 2)
  cvFold2 := (3, 4)

/-- Log-likelihoods for the DIC test environment, by `(numStates, data)`. -/
def SC2 : ℕ → ℕ → ℚ := fun n t => if t = 1 then -5 else if n = 3 then -1 else -4

/-- A concrete two-word vocabulary where DIC over the exclusive range `[2, 4)`
is `1` at two states and `4` at three states. -/
def envC2 : ModelSelector ℕ where
  hwords := [("A", 0), ("B", 1)]
  this_word := "A"
  thisData := 0
  sequencesLen := 2
  n_constant := 3
  min_n_components := 2
  max_n_components := 4
  random_state := 14
  numFeatures := 1
  logLenX := 1
  fitOk := fun _ _ => true
  scoreVal := fun n _ t => some (SC2 n t)
  cvFold1 := (1, 2)
  cvFold2 := (3, 4)

/-- A concrete word environment for cross-validation: both fold scores are `5`
at three states and `0` otherwise. -/
def envC3 : ModelSelector ℕ where
  hwords := [("A", 0)]
  this_word := "A"
  thisData := 0
  sequencesLen := 2
  n_constant := 3
  min_n_components := 2
  max_n_components := 3
  random_state := 14
  numFeatures := 1
  logLenX := 1
  fitOk := fun _ _ => true
  scoreVal := fun n _ _ => some (if n = 3 then 5 else 0)
  cvFold1 := (1, 2)
  cvFold2 := (3, 4)

/-- A concrete word environment where the fit at three states fails while the
fit at two states succeeds (and the fallback count is `9`). -/
def envC4 : ModelSelector ℕ where
  hwords := [("A", 0)]
  this_word := "A"
  thisData := 0
  sequencesLen := 2
  n_constant := 9
  min_n_components := 2
  max_n_components := 3
  random_state := 14
  numFeatures := 1
  logLenX := 0
  fitOk := fun n _ => n != 3
  scoreVal := fun _ _ _ => some 0
  cvFold1 := (1, 2)
  cvFold2 := (3, 4)

/-- A scoring oracle for the recognizer tests: model `0` raises on every item,
model `1` scores every item as `1`. -/
def scC5 : ℕ → ℕ → Option ℚ := fun m _ => if m = 0 then none else some 1

/-- A two-word model mapping for the recognizer tests. -/
def modelsC5 : List (String × ℕ) := [("A", 0), ("B", 1)]

/-- A one-item test set for the recognizer tests. -/
def tsC5 : List ℕ := [7]

/-- A concrete environment with an empty search range (`min 5 > max 4`) and a
fallback count `7` different from the hard-coded CV default `3`. -/
def envC7 : ModelSelector ℕ where
  hwords := [("A", 0)]
  this_word := "A"
  thisData := 0
  sequencesLen := 5
  n_constant := 7
  min_n_components := 5
  max_n_components := 4
  random_state := 14
  numFeatures := 1
  logLenX := 1
  fitOk := fun _ _ => true
  scoreVal := fun _ _ _ => some 0
  cvFold1 := (1, 2)
  cvFold2 := (3, 4)

/-- A concrete word environment for the determinism test. -/
def envC8 : ModelSelector ℕ where
  hwords := [("A", 0)]
  this_word := "A"
  thisData := 0
  sequencesLen := 2
  n_constant := 3
  min_n_components := 2
  max_n_components := 4
  random_state := 14
  numFeatures := 2
  logLenX := 1
  fitOk := fun _ _ => true
  scoreVal := fun n _ _ => some (-(n : ℚ))
  cvFold1 := (1, 2)
  cvFold2 := (3, 4)

/-- A concrete environment whose vocabulary contains only the target word,
with every fit and score succeeding. -/
def envC9 : ModelSelector ℕ where
  hwords := [("A", 0)]
  this_word := "A"
  thisData := 0
  sequencesLen := 2
  n_constant := 3
  min_n_components := 2
  max_n_components := 4
  random_state := 14
  numFeatures := 1
  logLenX := 1
  fitOk := fun _ _ => true
  scoreVal := fun _ _ _ => some 0
  cvFold1 := (1, 2)
  cvFold2 := (3, 4)

/-- A concrete word environment with a single sequence, so that the 2-fold
cross-validation split is impossible. -/
def envC10 : ModelSelector ℕ where
  hwords := [("A", 0)]
  this_word := "A"
  thisData := 0
  sequencesLen := 1
  n_constant := 3
  min_n_components := 2
  max_n_components := 4
  random_state := 14
  numFeatures := 1
  logLenX := 1
  fitOk := fun _ _ => true
  scoreVal := fun _ _ _ => some 0
  cvFold1 := (1, 2)
  cvFold2 := (3, 4)

/-! ### Basic facts about the float model -/

theorem EFloat.lt_nan_right (a : EFloat) : EFloat.lt a .nan = false := by
  cases a <;> rfl

theorem EFloat.lt_fin_pinf (s : ℚ) : EFloat.lt (.fin s) .pinf = true := rfl

theorem EFloat.lt_ninf_fin (s : ℚ) : EFloat.lt .ninf (.fin s) = true := rfl

theorem EFloat.lt_fin_fin (a b : ℚ) :
    EFloat.lt (.fin a) (.fin b) = decide (a < b) := rfl

theorem EFloat.lt_fin_fin_true {a b : ℚ} (h : a < b) :
    EFloat.lt (.fin a) (.fin b) = true := by
  rw [EFloat.lt_fin_fin]; exact decide_eq_true h

theorem EFloat.lt_fin_fin_false {a b : ℚ} (h : ¬ a < b) :
    EFloat.lt (.fin a) (.fin b) = false := by
  rw [EFloat.lt_fin_fin]; exact decide_eq_false h

/-! ### SelectorBIC: loop lemmas -/

theorem SelectorBIC.score_eq {D : Type} (env : ModelSelector D) (L : ℕ → ℚ) (n : ℕ)
    (hfit : env.fitOk n env.thisData = true)
    (hsc : env.scoreVal n env.thisData env.thisData = some (L n)) :
    SelectorBIC.score env n = .ok (bicScore env L n, ⟨n, env.thisData⟩) := by
  simp [SelectorBIC.score, ModelSelector.base_model, hfit, hsc, bicScore]

theorem SelectorBIC.score_shape {D : Type} (env : ModelSelector D) (n : ℕ)
    (s : ℚ) (model : GaussianHMM D)
    (h : SelectorBIC.score env n = .ok (s, model)) : model = ⟨n, env.thisData⟩ := by
  by_cases hf : env.fitOk n env.thisData
  · simp only [SelectorBIC.score, ModelSelector.base_model, hf, if_pos] at h
    rcases hv : env.scoreVal n env.thisData env.thisData with _ | q
    · rw [hv] at h; cases h
    · rw [hv] at h
      simp only [Except.ok.injEq, Prod.mk.injEq] at h
      exact h.2.symm
  · simp only [SelectorBIC.score, ModelSelector.base_model, hf, if_neg,
      Bool.false_eq_true, ite_false] at h
    cases h

theorem bic_loop_error {D : Type} (env : ModelSelector D) :
    ∀ (l : List ℕ) (acc : EFloat × Option (GaussianHMM D)) (n : ℕ), n ∈ l →
      SelectorBIC.score env n = .error () →
      SelectorBIC.loop env l acc = .error () := by
  intro l
  induction l with
  | nil => intro acc n h; cases h
  | cons a rest ih =>
      intro acc n hmem herr
      obtain ⟨best, bm⟩ := acc
      cases hsa : SelectorBIC.score env a with
      | error e =>
          cases e
          simp [SelectorBIC.loop, hsa]
      | ok v =>
          obtain ⟨s, model⟩ := v
          have hna : n ∈ rest := by
            rcases List.mem_cons.mp hmem with rfl | hn
            · rw [herr] at hsa; cases hsa
            · exact hn
          simp only [SelectorBIC.loop, hsa]
          split
          · exact ih _ n hna herr
          · exact ih _ n hna herr

theorem bic_loop_model {D : Type} (env : ModelSelector D) :
    ∀ (l : List ℕ) (acc r : EFloat × Option (GaussianHMM D)),
      SelectorBIC.loop env l acc = .ok r →
      r.2 = acc.2 ∨ ∃ n ∈ l, r.2 = some ⟨n, env.thisData⟩ := by
  intro l
  induction l with
  | nil =>
      intro acc r h
      simp only [SelectorBIC.loop, Except.ok.injEq] at h
      exact Or.inl (by rw [h])
  | cons a rest ih =>
      intro acc r h
      obtain ⟨best, bm⟩ := acc
      cases hsa : SelectorBIC.score env a with
      | error e =>
          simp only [SelectorBIC.loop, hsa] at h
          exact Except.noConfusion h
      | ok v =>
          obtain ⟨s, model⟩ := v
          have hmodel : model = ⟨a, env.thisData⟩ := SelectorBIC.score_shape env a s model hsa
          simp only [SelectorBIC.loop, hsa] at h
          split at h
          · rcases ih _ r h with h2 | ⟨n, hn, h2⟩
            · exact Or.inr ⟨a, List.mem_cons_self a rest, by rw [h2, hmodel]⟩
            · exact Or.inr ⟨n, List.mem_cons_of_mem a hn, h2⟩
          · rcases ih _ r h with h2 | ⟨n, hn, h2⟩
            · exact Or.inl h2
            · exact Or.inr ⟨n, List.mem_cons_of_mem a hn, h2⟩

theorem bic_loop_spec {D : Type} (env : ModelSelector D) (B : ℕ → ℚ) :
    ∀ (k a m : ℕ), m < a →
    (∀ n, a ≤ n → n < a + k → SelectorBIC.score env n = .ok (B n, ⟨n, env.thisData⟩)) →
    ∃ mb, SelectorBIC.loop env (List.range' a k) (.fin (B m), some ⟨m, env.thisData⟩)
        = .ok (.fin (B mb), some ⟨mb, env.thisData⟩) ∧
      (mb = m ∨ (a ≤ mb ∧ mb < a + k)) ∧
      B mb ≤ B m ∧
      (∀ n, a ≤ n → n < a + k → B mb ≤ B n) ∧
      (B mb = B m → mb = m) ∧
      (∀ n, a ≤ n → n < a + k → B n = B mb → mb ≤ n ∨ mb = m) := by
  intro k
  induction k with
  | zero =>
      intro a m hma h
      refine ⟨m, rfl, Or.inl rfl, le_refl _,
        fun n h1 h2 => absurd h2 (by omega), fun _ => rfl,
        fun n h1 h2 _ => absurd h2 (by omega)⟩
  | succ k ih =>
      intro a m hma h
      have hsa : SelectorBIC.score env a = .ok (B a, ⟨a, env.thisData⟩) :=
        h a (le_refl a) (by omega)
      rw [List.range'_succ]
      by_cases hBa : B a < B m
      · obtain ⟨mb, hloop, hmem, hle, hall, heq, htie⟩ :=
          ih (a + 1) a (by omega) (fun n h1 h2 => h n (by omega) (by omega))
        refine ⟨mb, ?_, ?_, ?_, ?_, ?_, ?_⟩
        · simp only [SelectorBIC.loop, hsa, EFloat.lt_fin_fin_true hBa, eq_self_iff_true,
            if_true]
          exact hloop
        · rcases hmem with rfl | ⟨h1, h2⟩
          · exact Or.inr ⟨by omega, by omega⟩
          · exact Or.inr ⟨by omega, by omega⟩
        · exact (lt_of_le_of_lt hle hBa).le
        · intro n h1 h2
          rcases Nat.eq_or_lt_of_le h1 with rfl | h1'
          · exact hle
          · exact hall n (by omega) (by omega)
        · intro habs
          exact absurd habs (ne_of_lt (lt_of_le_of_lt hle hBa))
        · intro n h1 h2 hBn
          rcases Nat.eq_or_lt_of_le h1 with rfl | h1'
          · exact Or.inl (le_of_eq (heq hBn.symm))
          · rcases htie n (by omega) (by omega) hBn with h3 | rfl
            · exact Or.inl h3
            · exact Or.inl (by omega)
      · obtain ⟨mb, hloop, hmem, hle, hall, heq, htie⟩ :=
          ih (a + 1) m (by omega) (fun n h1 h2 => h n (by omega) (by omega))
        have hma' : B m ≤ B a := le_of_not_lt hBa
        refine ⟨mb, ?_, ?_, ?_, ?_, heq, ?_⟩
        · simp only [SelectorBIC.loop, hsa, EFloat.lt_fin_fin_false hBa, Bool.false_eq_true,
            if_false]
          exact hloop
        · rcases hmem with rfl | ⟨h1, h2⟩
          · exact Or.inl rfl
          · exact Or.inr ⟨by omega, by omega⟩
        · exact hle
        · intro n h1 h2
          rcases Nat.eq_or_lt_of_le h1 with rfl | h1'
          · exact le_trans hle hma'
          · exact hall n (by omega) (by omega)
        · intro n h1 h2 hBn
          rcases Nat.eq_or_lt_of_le h1 with rfl | h1'
          · have h4 : B mb = B m := le_antisymm hle (hBn ▸ hma')
            exact Or.inr (heq h4)
          · exact htie n (by omega) (by omega) hBn

/-- C1: when every candidate fit and score in the inclusive range
`[min_n_components, max_n_components]` succeeds, `SelectorBIC.select` returns
the model (trained on the word's own data) whose state count minimizes
`BIC = -2 * logL + p * log(N)` with
`p = numStates^2 + 2 * numFeatures * numStates - 1`, and on a tie the lowest
state count (the first encountered) wins, since only strict improvement
updates the best. -/
theorem bic_select_minimizes {D : Type} (env : ModelSelector D) (L : ℕ → ℚ)
    (hrange : env.min_n_components ≤ env.max_n_components)
    (hfit : ∀ n, env.min_n_components ≤ n → n ≤ env.max_n_components →
      env.fitOk n env.thisData = true)
    (hsc : ∀ n, env.min_n_components ≤ n → n ≤ env.max_n_components →
      env.scoreVal n env.thisData env.thisData = some (L n)) :
    ∃ nb, env.min_n_components ≤ nb ∧ nb ≤ env.max_n_components ∧
      SelectorBIC.select env = some ⟨nb, env.thisData⟩ ∧
      (∀ n, env.min_n_components ≤ n → n ≤ env.max_n_components →
        bicScore env L nb ≤ bicScore env L n) ∧
      (∀ n, env.min_n_components ≤ n → n ≤ env.max_n_components →
        bicScore env L n = bicScore env L nb → nb ≤ n) := by
  have hok : ∀ n, env.min_n_components ≤ n → n ≤ env.max_n_components →
      SelectorBIC.score env n = .ok (bicScore env L n, ⟨n, env.thisData⟩) :=
    fun n h1 h2 => SelectorBIC.score_eq env L n (hfit n h1 h2) (hsc n h1 h2)
  have hk : env.max_n_components + 1 - env.min_n_components
      = (env.max_n_components - env.min_n_components) + 1 := by omega
  have hfirst : SelectorBIC.score env env.min_n_components
      = .ok (bicScore env L env.min_n_components,
             ⟨env.min_n_components, env.thisData⟩) :=
    hok env.min_n_components (le_refl _) hrange
  obtain ⟨mb, hloop, hmem, hle, hall, heqm, htie⟩ :=
    bic_loop_spec env (bicScore env L)
      (env.max_n_components - env.min_n_components) (env.min_n_components + 1)
      env.min_n_components (by omega)
      (fun n h1 h2 => hok n (by omega) (by omega))
  refine ⟨mb, ?_, ?_, ?_, ?_, ?_⟩
  · rcases hmem with rfl | ⟨h1, h2⟩ <;> omega
  · rcases hmem with rfl | ⟨h1, h2⟩ <;> omega
  · rw [SelectorBIC.select, ModelSelector.searchRange, hk, List.range'_succ]
    simp only [SelectorBIC.loop, hfirst, EFloat.lt, if_true]
    rw [hloop]
  · intro n h1 h2
    rcases Nat.eq_or_lt_of_le h1 with rfl | h1'
    · exact hle
    · exact hall n (by omega) (by omega)
  · intro n h1 h2 hBn
    rcases Nat.eq_or_lt_of_le h1 with rfl | h1'
    · exact le_of_eq (heqm hBn.symm)
    · rcases htie n (by omega) (by omega) hBn with h3 | rfl
      · exact h3
      · omega

/-- C1 witness: in the concrete environment `envC1` the theorem yields the
two-state model, whose BIC value 27 beats the three-state value 54. -/
theorem bic_select_minimizes_witness :
    ∃ nb, envC1.min_n_components ≤ nb ∧ nb ≤ envC1.max_n_components ∧
      SelectorBIC.select envC1 = some ⟨nb, envC1.thisData⟩ ∧
      (∀ n, envC1.min_n_components ≤ n → n ≤ envC1.max_n_components →
        bicScore envC1 LC1 nb ≤ bicScore envC1 LC1 n) ∧
      (∀ n, envC1.min_n_components ≤ n → n ≤ envC1.max_n_components →
        bicScore envC1 LC1 n = bicScore envC1 LC1 nb → nb ≤ n) :=
  bic_select_minimizes envC1 LC1 (by decide) (fun n _ _ => rfl) (fun n _ _ => rfl)

/-! ### SelectorDIC: loop lemmas -/

theorem SelectorDIC.otherScores_eq {D : Type} (env : ModelSelector D)
    (model : GaussianHMM D) (OS : D → ℚ) :
    ∀ l : List (String × D),
    (∀ p ∈ l, p.1 ≠ env.this_word →
      env.scoreVal model.n_components model.trainData p.2 = some (OS p.2)) →
    SelectorDIC.otherScores env model l
      = .ok ((l.filter (fun p => decide (p.1 ≠ env.this_word))).map (fun p => OS p.2)) := by
  intro l
  induction l with
  | nil => intro h; rfl
  | cons p rest ih =>
      intro h
      by_cases hp : p.1 ≠ env.this_word
      · rw [SelectorDIC.otherScores, if_pos hp, h p (List.mem_cons_self p rest) hp,
          List.filter_cons_of_pos (by simpa using hp),
          ih (fun q hq hq2 => h q (List.mem_cons_of_mem p hq) hq2)]
        rfl
      · rw [SelectorDIC.otherScores, if_neg hp,
          List.filter_cons_of_neg (by simpa using hp),
          ih (fun q hq hq2 => h q (List.mem_cons_of_mem p hq) hq2)]

theorem SelectorDIC.scoreE_shape {D : Type} (env : ModelSelector D) (n : ℕ)
    (s : EFloat) (model : GaussianHMM D)
    (h : SelectorDIC.scoreE env n = .ok (s, model)) : model = ⟨n, env.thisData⟩ := by
  by_cases hf : env.fitOk n env.thisData
  · simp only [SelectorDIC.scoreE, ModelSelector.base_model, hf, if_pos] at h
    rcases ho : SelectorDIC.otherScores env ⟨n, env.thisData⟩ env.hwords with e | arr
    · rw [ho] at h; cases h
    · rw [ho] at h
      rcases hv : env.scoreVal n env.thisData env.thisData with _ | q
      · rw [hv] at h; cases h
      · rw [hv] at h
        simp only [Except.ok.injEq, Prod.mk.injEq] at h
        exact h.2.symm
  · simp only [SelectorDIC.scoreE, ModelSelector.base_model, hf, Bool.false_eq_true,
      ite_false] at h
    cases h

theorem dic_loop_error {D : Type} (env : ModelSelector D) :
    ∀ (l : List ℕ) (acc : EFloat × Option (GaussianHMM D)) (n : ℕ), n ∈ l →
      SelectorDIC.scoreE env n = .error () →
      SelectorDIC.loop env l acc = .error () := by
  intro l
  induction l with
  | nil => intro acc n h; cases h
  | cons a rest ih =>
      intro acc n hmem herr
      obtain ⟨best, bm⟩ := acc
      cases hsa : SelectorDIC.scoreE env a with
      | error e =>
          cases e
          simp [SelectorDIC.loop, hsa]
      | ok v =>
          obtain ⟨s, model⟩ := v
          have hna : n ∈ rest := by
            rcases List.mem_cons.mp hmem with rfl | hn
            · rw [herr] at hsa; cases hsa
            · exact hn
          simp only [SelectorDIC.loop, hsa]
          split
          · exact ih _ n hna herr
          · exact ih _ n hna herr

theorem dic_loop_model {D : Type} (env : ModelSelector D) :
    ∀ (l : List ℕ) (acc r : EFloat × Option (GaussianHMM D)),
      SelectorDIC.loop env l acc = .ok r →
      r.2 = acc.2 ∨ ∃ n ∈ l, r.2 = some ⟨n, env.thisData⟩ := by
  intro l
  induction l with
  | nil =>
      intro acc r h
      simp only [SelectorDIC.loop, Except.ok.injEq] at h
      exact Or.inl (by rw [h])
  | cons a rest ih =>
      intro acc r h
      obtain ⟨best, bm⟩ := acc
      cases hsa : SelectorDIC.scoreE env a with
      | error e =>
          simp only [SelectorDIC.loop, hsa] at h
          exact Except.noConfusion h
      | ok v =>
          obtain ⟨s, model⟩ := v
          have hmodel : model = ⟨a, env.thisData⟩ := SelectorDIC.scoreE_shape env a s model hsa
          simp only [SelectorDIC.loop, hsa] at h
          split at h
          · rcases ih _ r h with h2 | ⟨n, hn, h2⟩
            · exact Or.inr ⟨a, List.mem_cons_self a rest, by rw [h2, hmodel]⟩
            · exact Or.inr ⟨n, List.mem_cons_of_mem a hn, h2⟩
          · rcases ih _ r h with h2 | ⟨n, hn, h2⟩
            · exact Or.inl h2
            · exact Or.inr ⟨n, List.mem_cons_of_mem a hn, h2⟩

theorem SelectorDIC.loop_nan {D : Type} (env : ModelSelector D) :
    ∀ (l : List ℕ) (acc : EFloat × Option (GaussianHMM D)),
    (∀ n ∈ l, ∃ model, SelectorDIC.scoreE env n = .ok (.nan, model)) →
    SelectorDIC.loop env l acc = .ok acc := by
  intro l
  induction l with
  | nil => intro acc h; rfl
  | cons a rest ih =>
      intro acc h
      obtain ⟨best, bm⟩ := acc
      obtain ⟨model, hsa⟩ := h a (List.mem_cons_self a rest)
      simp only [SelectorDIC.loop, hsa, EFloat.lt_nan_right, Bool.false_eq_true, if_false]
      exact ih _ (fun n hn => h n (List.mem_cons_of_mem a hn))

theorem dic_loop_spec {D : Type} (env : ModelSelector D) (V : ℕ → ℚ) :
    ∀ (k a m : ℕ), m < a →
    (∀ n, a ≤ n → n < a + k →
      SelectorDIC.scoreE env n = .ok (.fin (V n), ⟨n, env.thisData⟩)) →
    ∃ mb, SelectorDIC.loop env (List.range' a k) (.fin (V m), some ⟨m, env.thisData⟩)
        = .ok (.fin (V mb), some ⟨mb, env.thisData⟩) ∧
      (mb = m ∨ (a ≤ mb ∧ mb < a + k)) ∧
      V m ≤ V mb ∧
      (∀ n, a ≤ n → n < a + k → V n ≤ V mb) ∧
      (V mb = V m → mb = m) ∧
      (∀ n, a ≤ n → n < a + k → V n = V mb → mb ≤ n ∨ mb = m) := by
  intro k
  induction k with
  | zero =>
      intro a m hma h
      refine ⟨m, rfl, Or.inl rfl, le_refl _,
        fun n h1 h2 => absurd h2 (by omega), fun _ => rfl,
        fun n h1 h2 _ => absurd h2 (by omega)⟩
  | succ k ih =>
      intro a m hma h
      have hsa : SelectorDIC.scoreE env a = .ok (.fin (V a), ⟨a, env.thisData⟩) :=
        h a (le_refl a) (by omega)
      rw [List.range'_succ]
      by_cases hVa : V m < V a
      · obtain ⟨mb, hloop, hmem, hle, hall, heqm, htie⟩ :=
          ih (a + 1) a (by omega) (fun n h1 h2 => h n (by omega) (by omega))
        refine ⟨mb, ?_, ?_, ?_, ?_, ?_, ?_⟩
        · simp only [SelectorDIC.loop, hsa, EFloat.lt_fin_fin_true hVa, eq_self_iff_true,
            if_true]
          exact hloop
        · rcases hmem with rfl | ⟨h1, h2⟩
          · exact Or.inr ⟨by omega, by omega⟩
          · exact Or.inr ⟨by omega, by omega⟩
        · exact (lt_of_lt_of_le hVa hle).le
        · intro n h1 h2
          rcases Nat.eq_or_lt_of_le h1 with rfl | h1'
          · exact hle
          · exact hall n (by omega) (by omega)
        · intro habs
          exact absurd habs (ne_of_gt (lt_of_lt_of_le hVa hle))
        · intro n h1 h2 hVn
          rcases Nat.eq_or_lt_of_le h1 with rfl | h1'
          · exact Or.inl (le_of_eq (heqm hVn.symm))
          · rcases htie n (by omega) (by omega) hVn with h3 | rfl
            · exact Or.inl h3
            · exact Or.inl (by omega)
      · obtain ⟨mb, hloop, hmem, hle, hall, heqm, htie⟩ :=
          ih (a + 1) m (by omega) (fun n h1 h2 => h n (by omega) (by omega))
        have hma' : V a ≤ V m := le_of_not_lt hVa
        refine ⟨mb, ?_, ?_, ?_, ?_, heqm, ?_⟩
        · simp only [SelectorDIC.loop, hsa, EFloat.lt_fin_fin_false hVa, Bool.false_eq_true,
            if_false]
          exact hloop
        · rcases hmem with rfl | ⟨h1, h2⟩
          · exact Or.inl rfl
          · exact Or.inr ⟨by omega, by omega⟩
        · exact hle
        · intro n h1 h2
          rcases Nat.eq_or_lt_of_le h1 with rfl | h1'
          · exact le_trans hma' hle
          · exact hall n (by omega) (by omega)
        · intro n h1 h2 hVn
          rcases Nat.eq_or_lt_of_le h1 with rfl | h1'
          · have h4 : V mb = V m := le_antisymm (hVn ▸ hma') hle
            exact Or.inr (heqm h4)
          · exact htie n (by omega) (by omega) hVn

theorem npMean_ne_nil (l : List ℚ) (h : l ≠ []) :
    npMean l = .fin (l.sum / (l.length : ℚ)) := by
  cases l with
  | nil => exact absurd rfl h
  | cons a t => rfl

theorem dic_scoreE_eq {D : Type} (env : ModelSelector D) (n : ℕ) (own : ℚ)
    (arr : List ℚ)
    (hfit : env.fitOk n env.thisData = true)
    (hos : SelectorDIC.otherScores env ⟨n, env.thisData⟩ env.hwords = .ok arr)
    (hown : env.scoreVal n env.thisData env.thisData = some own) :
    SelectorDIC.scoreE env n
      = .ok (EFloat.sub (.fin own) (npMean arr), ⟨n, env.thisData⟩) := by
  simp [SelectorDIC.scoreE, ModelSelector.base_model, hfit, hos, hown]

/-- C2: with at least one other vocabulary word, and every candidate fit and
score succeeding, `SelectorDIC.select` returns the model maximizing
`DIC = logL(word) - mean(logL(other words))`, searching the upper-bound
EXCLUSIVE range `[min_n_components, max_n_components)` (unlike the inclusive
ranges of BIC and CV, cf. `bic_select_minimizes` and `cv_select_maximizes`);
ties keep the first (lowest) state count. -/
theorem dic_select_maximizes {D : Type} (env : ModelSelector D)
    (Own : ℕ → ℚ) (OS : ℕ → D → ℚ)
    (hrange : env.min_n_components < env.max_n_components)
    (hother : ∃ p ∈ env.hwords, p.1 ≠ env.this_word)
    (hfit : ∀ n, env.min_n_components ≤ n → n < env.max_n_components →
      env.fitOk n env.thisData = true)
    (hown : ∀ n, env.min_n_components ≤ n → n < env.max_n_components →
      env.scoreVal n env.thisData env.thisData = some (Own n))
    (hos : ∀ n, env.min_n_components ≤ n → n < env.max_n_components →
      ∀ p ∈ env.hwords, p.1 ≠ env.this_word →
        env.scoreVal n env.thisData p.2 = some (OS n p.2)) :
    env.max_n_components ∉ env.dicRange ∧ env.max_n_components ∈ env.searchRange ∧
    ∃ nb, env.min_n_components ≤ nb ∧ nb < env.max_n_components ∧
      SelectorDIC.select env = some ⟨nb, env.thisData⟩ ∧
      (∀ n, env.min_n_components ≤ n → n < env.max_n_components →
        dicVal env Own OS n ≤ dicVal env Own OS nb) ∧
      (∀ n, env.min_n_components ≤ n → n < env.max_n_components →
        dicVal env Own OS n = dicVal env Own OS nb → nb ≤ n) := by
  refine ⟨fun hc => by have hb := List.mem_range'_1.mp hc; omega,
    List.mem_range'_1.mpr ⟨hrange.le, by omega⟩, ?_⟩
  have hflne : env.hwords.filter (fun p => decide (p.1 ≠ env.this_word)) ≠ [] := by
    obtain ⟨p, hp, hpne⟩ := hother
    intro hnil
    have hmem : p ∈ env.hwords.filter (fun p => decide (p.1 ≠ env.this_word)) :=
      List.mem_filter.mpr ⟨hp, by simpa using hpne⟩
    rw [hnil] at hmem
    cases hmem
  have hok : ∀ n, env.min_n_components ≤ n → n < env.max_n_components →
      SelectorDIC.scoreE env n = .ok (.fin (dicVal env Own OS n), ⟨n, env.thisData⟩) := by
    intro n h1 h2
    have hosn := SelectorDIC.otherScores_eq env ⟨n, env.thisData⟩ (OS n) env.hwords
      (fun p hp hpne => hos n h1 h2 p hp hpne)
    rw [dic_scoreE_eq env n (Own n)
      ((env.hwords.filter (fun p => decide (p.1 ≠ env.this_word))).map (fun p => OS n p.2))
      (hfit n h1 h2) hosn (hown n h1 h2)]
    rw [npMean_ne_nil _ (by simpa using hflne)]
    have hval : EFloat.sub (.fin (Own n))
        (.fin (((env.hwords.filter (fun p => decide (p.1 ≠ env.this_word))).map
          (fun p => OS n p.2)).sum /
          (((env.hwords.filter (fun p => decide (p.1 ≠ env.this_word))).map
            (fun p => OS n p.2)).length : ℚ)))
        = .fin (dicVal env Own OS n) := by
      simp [EFloat.sub, dicVal, othersData, List.map_map, Function.comp_def]
    rw [hval]
  have hk : env.max_n_components - env.min_n_components
      = (env.max_n_components - env.min_n_components - 1) + 1 := by omega
  have hfirst := hok env.min_n_components (le_refl _) hrange
  obtain ⟨mb, hloop, hmem, hle, hall, heqm, htie⟩ :=
    dic_loop_spec env (dicVal env Own OS)
      (env.max_n_components - env.min_n_components - 1) (env.min_n_components + 1)
      env.min_n_components (by omega)
      (fun n h1 h2 => hok n (by omega) (by omega))
  refine ⟨mb, ?_, ?_, ?_, ?_, ?_⟩
  · rcases hmem with rfl | ⟨h1, h2⟩ <;> omega
  · rcases hmem with rfl | ⟨h1, h2⟩ <;> omega
  · rw [SelectorDIC.select, ModelSelector.dicRange, hk, List.range'_succ]
    simp only [SelectorDIC.loop, hfirst, EFloat.lt, if_true]
    rw [hloop]
  · intro n h1 h2
    rcases Nat.eq_or_lt_of_le h1 with rfl | h1'
    · exact hle
    · exact hall n (by omega) (by omega)
  · intro n h1 h2 hVn
    rcases Nat.eq_or_lt_of_le h1 with rfl | h1'
    · exact le_of_eq (heqm hVn.symm)
    · rcases htie n (by omega) (by omega) hVn with h3 | rfl
      · exact h3
      · omega

/-- C2 witness: in the concrete two-word environment `envC2` the theorem
yields the three-state model, whose DIC value 4 beats the two-state value 1,
over the exclusive candidate range `[2, 4)`. -/
theorem dic_select_maximizes_witness :
    envC2.max_n_components ∉ envC2.dicRange ∧
    envC2.max_n_components ∈ envC2.searchRange ∧
    ∃ nb, envC2.min_n_components ≤ nb ∧ nb < envC2.max_n_components ∧
      SelectorDIC.select envC2 = some ⟨nb, envC2.thisData⟩ ∧
      (∀ n, envC2.min_n_components ≤ n → n < envC2.max_n_components →
        dicVal envC2 (fun n => SC2 n 0) (fun n d => SC2 n d) n
          ≤ dicVal envC2 (fun n => SC2 n 0) (fun n d => SC2 n d) nb) ∧
      (∀ n, envC2.min_n_components ≤ n → n < envC2.max_n_components →
        dicVal envC2 (fun n => SC2 n 0) (fun n d => SC2 n d) n
          = dicVal envC2 (fun n => SC2 n 0) (fun n d => SC2 n d) nb → nb ≤ n) :=
  dic_select_maximizes envC2 (fun n => SC2 n 0) (fun n d => SC2 n d)
    (by decide) ⟨("B", 1), by decide, by decide⟩
    (fun n _ _ => rfl) (fun n _ _ => rfl) (fun n _ _ p _ _ => rfl)

/-- C9: when the vocabulary mapping contains only the target word and every
candidate fit and score succeeds, `SelectorDIC.select` returns `none` without
raising: the mean over the empty other-word score list is `nan`, every DIC
score is `nan`, the strict-greater comparison never updates the best model,
and the `n_constant` fallback is not triggered. -/
theorem dic_single_word_returns_none {D : Type} (env : ModelSelector D)
    (honly : ∀ p ∈ env.hwords, p.1 = env.this_word)
    (hfit : ∀ n, env.min_n_components ≤ n → n < env.max_n_components →
      env.fitOk n env.thisData = true)
    (hsc : ∀ n, env.min_n_components ≤ n → n < env.max_n_components →
      (env.scoreVal n env.thisData env.thisData).isSome = true) :
    SelectorDIC.select env = none := by
  have hnan : ∀ n ∈ env.dicRange,
      ∃ model, SelectorDIC.scoreE env n = .ok (.nan, model) := by
    intro n hn
    have hb := List.mem_range'_1.mp hn
    have h1 : env.min_n_components ≤ n := hb.1
    have h2 : n < env.max_n_components := by omega
    obtain ⟨own, hown⟩ := Option.isSome_iff_exists.mp (hsc n h1 h2)
    have hosn := SelectorDIC.otherScores_eq env ⟨n, env.thisData⟩ (fun _ => 0) env.hwords
      (fun p hp hpne => absurd (honly p hp) hpne)
    have hfl : env.hwords.filter (fun p => decide (p.1 ≠ env.this_word)) = [] := by
      rw [List.filter_eq_nil_iff]
      intro p hp
      simpa using honly p hp
    rw [hfl] at hosn
    refine ⟨⟨n, env.thisData⟩, ?_⟩
    rw [dic_scoreE_eq env n own [] (hfit n h1 h2) hosn hown]
    rfl
  have hl := SelectorDIC.loop_nan env env.dicRange (.ninf, none) hnan
  simp only [SelectorDIC.select, hl]

/-- C9 witness: the concrete single-word environment `envC9` yields `none`. -/
theorem dic_single_word_returns_none_witness : SelectorDIC.select envC9 = none :=
  dic_single_word_returns_none envC9
    (fun p hp => by
      have h0 : envC9.hwords = [("A", 0)] := rfl
      rw [h0, List.mem_singleton] at hp
      rw [hp]
      rfl)
    (fun n _ _ => rfl) (fun n _ _ => rfl)

/-! ### SelectorCV: loop lemmas -/

theorem cv_scoreE_eq {D : Type} (env : ModelSelector D) (S1 S2 : ℕ → ℚ) (n : ℕ)
    (hseq : 2 ≤ env.sequencesLen)
    (hf1 : env.fitOk n env.cvFold1.1 = true)
    (hs1 : env.scoreVal n env.cvFold1.1 env.cvFold1.2 = some (S1 n))
    (hf2 : env.fitOk n env.cvFold2.1 = true)
    (hs2 : env.scoreVal n env.cvFold2.1 env.cvFold2.2 = some (S2 n)) :
    SelectorCV.scoreE env n = .ok (cvVal S1 S2 n) := by
  simp [SelectorCV.scoreE, Nat.not_lt.mpr hseq, hf1, hs1, hf2, hs2, cvVal]

theorem SelectorCV.scoreE_few {D : Type} (env : ModelSelector D)
    (hseq : env.sequencesLen < 2) (n : ℕ) :
    SelectorCV.scoreE env n = .error () := by
  simp [SelectorCV.scoreE, hseq]

theorem cv_loop_error {D : Type} (env : ModelSelector D) :
    ∀ (l : List ℕ) (acc : EFloat × ℕ) (n : ℕ), n ∈ l →
      SelectorCV.scoreE env n = .error () →
      SelectorCV.loop env l acc = .error () := by
  intro l
  induction l with
  | nil => intro acc n h; cases h
  | cons a rest ih =>
      intro acc n hmem herr
      obtain ⟨best, bs⟩ := acc
      cases hsa : SelectorCV.scoreE env a with
      | error e =>
          cases e
          simp [SelectorCV.loop, hsa]
      | ok s =>
          have hna : n ∈ rest := by
            rcases List.mem_cons.mp hmem with rfl | hn
            · rw [herr] at hsa; cases hsa
            · exact hn
          simp only [SelectorCV.loop, hsa]
          split
          · exact ih _ n hna herr
          · exact ih _ n hna herr

theorem SelectorCV.loop_states {D : Type} (env : ModelSelector D) :
    ∀ (l : List ℕ) (acc r : EFloat × ℕ),
      SelectorCV.loop env l acc = .ok r → r.2 = acc.2 ∨ r.2 ∈ l := by
  intro l
  induction l with
  | nil =>
      intro acc r h
      simp only [SelectorCV.loop, Except.ok.injEq] at h
      exact Or.inl (by rw [h])
  | cons a rest ih =>
      intro acc r h
      obtain ⟨best, bs⟩ := acc
      cases hsa : SelectorCV.scoreE env a with
      | error e =>
          simp only [SelectorCV.loop, hsa] at h
          exact Except.noConfusion h
      | ok s =>
          simp only [SelectorCV.loop, hsa] at h
          split at h
          · rcases ih _ r h with h2 | h2
            · exact Or.inr (by rw [h2]; exact List.mem_cons_self a rest)
            · exact Or.inr (List.mem_cons_of_mem a h2)
          · rcases ih _ r h with h2 | h2
            · exact Or.inl h2
            · exact Or.inr (List.mem_cons_of_mem a h2)

theorem cv_loop_spec {D : Type} (env : ModelSelector D) (C : ℕ → ℚ) :
    ∀ (k a m : ℕ), m < a →
    (∀ n, a ≤ n → n < a + k → SelectorCV.scoreE env n = .ok (C n)) →
    ∃ mb, SelectorCV.loop env (List.range' a k) (.fin (C m), m)
        = .ok (.fin (C mb), mb) ∧
      (mb = m ∨ (a ≤ mb ∧ mb < a + k)) ∧
      C m ≤ C mb ∧
      (∀ n, a ≤ n → n < a + k → C n ≤ C mb) ∧
      (C mb = C m → mb = m) ∧
      (∀ n, a ≤ n → n < a + k → C n = C mb → mb ≤ n ∨ mb = m) := by
  intro k
  induction k with
  | zero =>
      intro a m hma h
      refine ⟨m, rfl, Or.inl rfl, le_refl _,
        fun n h1 h2 => absurd h2 (by omega), fun _ => rfl,
        fun n h1 h2 _ => absurd h2 (by omega)⟩
  | succ k ih =>
      intro a m hma h
      have hsa : SelectorCV.scoreE env a = .ok (C a) := h a (le_refl a) (by omega)
      rw [List.range'_succ]
      by_cases hCa : C m < C a
      · obtain ⟨mb, hloop, hmem, hle, hall, heqm, htie⟩ :=
          ih (a + 1) a (by omega) (fun n h1 h2 => h n (by omega) (by omega))
        refine ⟨mb, ?_, ?_, ?_, ?_, ?_, ?_⟩
        · simp only [SelectorCV.loop, hsa, EFloat.lt_fin_fin_true hCa, eq_self_iff_true,
            if_true]
          exact hloop
        · rcases hmem with rfl | ⟨h1, h2⟩
          · exact Or.inr ⟨by omega, by omega⟩
          · exact Or.inr ⟨by omega, by omega⟩
        · exact (lt_of_lt_of_le hCa hle).le
        · intro n h1 h2
          rcases Nat.eq_or_lt_of_le h1 with rfl | h1'
          · exact hle
          · exact hall n (by omega) (by omega)
        · intro habs
          exact absurd habs (ne_of_gt (lt_of_lt_of_le hCa hle))
        · intro n h1 h2 hCn
          rcases Nat.eq_or_lt_of_le h1 with rfl | h1'
          · exact Or.inl (le_of_eq (heqm hCn.symm))
          · rcases htie n (by omega) (by omega) hCn with h3 | rfl
            · exact Or.inl h3
            · exact Or.inl (by omega)
      · obtain ⟨mb, hloop, hmem, hle, hall, heqm, htie⟩ :=
          ih (a + 1) m (by omega) (fun n h1 h2 => h n (by omega) (by omega))
        have hma' : C a ≤ C m := le_of_not_lt hCa
        refine ⟨mb, ?_, ?_, ?_, ?_, heqm, ?_⟩
        · simp only [SelectorCV.loop, hsa, EFloat.lt_fin_fin_false hCa, Bool.false_eq_true,
            if_false]
          exact hloop
        · rcases hmem with rfl | ⟨h1, h2⟩
          · exact Or.inl rfl
          · exact Or.inr ⟨by omega, by omega⟩
        · exact hle
        · intro n h1 h2
          rcases Nat.eq_or_lt_of_le h1 with rfl | h1'
          · exact le_trans hma' hle
          · exact hall n (by omega) (by omega)
        · intro n h1 h2 hCn
          rcases Nat.eq_or_lt_of_le h1 with rfl | h1'
          · have h4 : C mb = C m := le_antisymm (hCn ▸ hma') hle
            exact Or.inr (heqm h4)
          · exact htie n (by omega) (by omega) hCn

/-- C3: for a word with at least 2 sequences whose fold fits and scores all
succeed, `SelectorCV.select` picks the state count maximizing the mean
held-out log-likelihood over the fixed 2-fold split (inclusive range, first
maximum on ties) and returns a model refit at that count on the ENTIRE word's
data (`self.X, self.lengths`), not a fold-trained model; when the search loop
never executes the chosen state count is the hard-coded default 3. -/
theorem cv_select_maximizes {D : Type} (env : ModelSelector D) (S1 S2 : ℕ → ℚ)
    (hseq : 2 ≤ env.sequencesLen)
    (hf1 : ∀ n, env.min_n_components ≤ n → n ≤ env.max_n_components →
      env.fitOk n env.cvFold1.1 = true)
    (hs1 : ∀ n, env.min_n_components ≤ n → n ≤ env.max_n_components →
      env.scoreVal n env.cvFold1.1 env.cvFold1.2 = some (S1 n))
    (hf2 : ∀ n, env.min_n_components ≤ n → n ≤ env.max_n_components →
      env.fitOk n env.cvFold2.1 = true)
    (hs2 : ∀ n, env.min_n_components ≤ n → n ≤ env.max_n_components →
      env.scoreVal n env.cvFold2.1 env.cvFold2.2 = some (S2 n)) :
    (env.min_n_components ≤ env.max_n_components →
      ∃ nb, env.min_n_components ≤ nb ∧ nb ≤ env.max_n_components ∧
        SelectorCV.select env = env.base_model nb ∧
        (∀ mo, SelectorCV.select env = some mo → mo.trainData = env.thisData) ∧
        (env.fitOk nb env.thisData = true →
          SelectorCV.select env = some ⟨nb, env.thisData⟩) ∧
        (∀ n, env.min_n_components ≤ n → n ≤ env.max_n_components →
          cvVal S1 S2 n ≤ cvVal S1 S2 nb) ∧
        (∀ n, env.min_n_components ≤ n → n ≤ env.max_n_components →
          cvVal S1 S2 n = cvVal S1 S2 nb → nb ≤ n)) ∧
    (env.max_n_components < env.min_n_components →
      SelectorCV.select env = env.base_model 3) := by
  constructor
  · intro hrange
    have hok : ∀ n, env.min_n_components ≤ n → n ≤ env.max_n_components →
        SelectorCV.scoreE env n = .ok (cvVal S1 S2 n) :=
      fun n h1 h2 => cv_scoreE_eq env S1 S2 n hseq
        (hf1 n h1 h2) (hs1 n h1 h2) (hf2 n h1 h2) (hs2 n h1 h2)
    have hk : env.max_n_components + 1 - env.min_n_components
        = (env.max_n_components - env.min_n_components) + 1 := by omega
    have hfirst := hok env.min_n_components (le_refl _) hrange
    obtain ⟨mb, hloop, hmem, hle, hall, heqm, htie⟩ :=
      cv_loop_spec env (cvVal S1 S2)
        (env.max_n_components - env.min_n_components) (env.min_n_components + 1)
        env.min_n_components (by omega)
        (fun n h1 h2 => hok n (by omega) (by omega))
    have hsel : SelectorCV.select env = env.base_model mb := by
      rw [SelectorCV.select, ModelSelector.searchRange, hk, List.range'_succ]
      simp only [SelectorCV.loop, hfirst, EFloat.lt, if_true]
      rw [hloop]
    refine ⟨mb, ?_, ?_, hsel, ?_, ?_, ?_, ?_⟩
    · rcases hmem with rfl | ⟨h1, h2⟩ <;> omega
    · rcases hmem with rfl | ⟨h1, h2⟩ <;> omega
    · intro mo hmo
      rw [hsel, ModelSelector.base_model] at hmo
      split at hmo
      · cases hmo; rfl
      · cases hmo
    · intro hfitb
      rw [hsel, ModelSelector.base_model, if_pos hfitb]
    · intro n h1 h2
      rcases Nat.eq_or_lt_of_le h1 with rfl | h1'
      · exact hle
      · exact hall n (by omega) (by omega)
    · intro n h1 h2 hCn
      rcases Nat.eq_or_lt_of_le h1 with rfl | h1'
      · exact le_of_eq (heqm hCn.symm)
      · rcases htie n (by omega) (by omega) hCn with h3 | rfl
        · exact h3
        · omega
  · intro hrange
    have h0 : env.searchRange = [] := by
      rw [ModelSelector.searchRange, show env.max_n_components + 1 - env.min_n_components
        = 0 by omega]
      rfl
    simp only [SelectorCV.select, h0, SelectorCV.loop]

/-- C3 witness: in the concrete environment `envC3` the cross-validation mean
is 5 at three states and 0 at two states, so the theorem returns the model
refit at three states on the word's whole data. -/
theorem cv_select_maximizes_witness :
    (envC3.min_n_components ≤ envC3.max_n_components →
      ∃ nb, envC3.min_n_components ≤ nb ∧ nb ≤ envC3.max_n_components ∧
        SelectorCV.select envC3 = envC3.base_model nb ∧
        (∀ mo, SelectorCV.select envC3 = some mo → mo.trainData = envC3.thisData) ∧
        (envC3.fitOk nb envC3.thisData = true →
          SelectorCV.select envC3 = some ⟨nb, envC3.thisData⟩) ∧
        (∀ n, envC3.min_n_components ≤ n → n ≤ envC3.max_n_components →
          cvVal (fun n => if n = 3 then 5 else 0) (fun n => if n = 3 then 5 else 0) n
            ≤ cvVal (fun n => if n = 3 then 5 else 0) (fun n => if n = 3 then 5 else 0) nb) ∧
        (∀ n, envC3.min_n_components ≤ n → n ≤ envC3.max_n_components →
          cvVal (fun n => if n = 3 then 5 else 0) (fun n => if n = 3 then 5 else 0) n
            = cvVal (fun n => if n = 3 then 5 else 0) (fun n => if n = 3 then 5 else 0) nb →
            nb ≤ n)) ∧
    (envC3.max_n_components < envC3.min_n_components →
      SelectorCV.select envC3 = envC3.base_model 3) :=
  cv_select_maximizes envC3 (fun n => if n = 3 then 5 else 0)
    (fun n => if n = 3 then 5 else 0) (by decide)
    (fun n _ _ => rfl) (fun n _ _ => rfl) (fun n _ _ => rfl) (fun n _ _ => rfl)

/-- C10: when the target word has fewer than 2 sequences (and the search loop
runs at least once), the 2-fold split raises inside `score`, the exception is
caught by `select`, and the result is the model fit at `n_constant` — `none`
when that fallback fit fails too; nothing propagates to the caller. -/
theorem cv_select_few_sequences {D : Type} (env : ModelSelector D)
    (hseq : env.sequencesLen < 2)
    (hrange : env.min_n_components ≤ env.max_n_components) :
    SelectorCV.select env = env.base_model env.n_constant ∧
    (env.fitOk env.n_constant env.thisData = false → SelectorCV.select env = none) := by
  have hmem : env.min_n_components ∈ env.searchRange :=
    List.mem_range'_1.mpr ⟨le_refl _, by omega⟩
  have herr := SelectorCV.scoreE_few env hseq env.min_n_components
  have hl := cv_loop_error env env.searchRange (.ninf, 3)
    env.min_n_components hmem herr
  have hsel : SelectorCV.select env = env.base_model env.n_constant := by
    simp only [SelectorCV.select, hl]
  refine ⟨hsel, fun hfail => ?_⟩
  rw [hsel, ModelSelector.base_model, hfail]
  rfl

/-- C10 witness: the concrete single-sequence environment `envC10` falls back
to the `n_constant` model. -/
theorem cv_select_few_sequences_witness :
    SelectorCV.select envC10 = envC10.base_model envC10.n_constant ∧
    (envC10.fitOk envC10.n_constant envC10.thisData = false →
      SelectorCV.select envC10 = none) :=
  cv_select_few_sequences envC10 (by decide) (by decide)

/-! ### Fallback behaviour and state-count range -/

theorem ModelSelector.base_model_states {D : Type} (env : ModelSelector D) (k : ℕ)
    (mo : GaussianHMM D) (h : env.base_model k = some mo) : mo.n_components = k := by
  rw [ModelSelector.base_model] at h
  split at h
  · cases h; rfl
  · cases h

/-- C4 (amended): a fit failure at a candidate makes that candidate's scoring
raise, and any raising candidate inside the searched range does NOT merely
remove that one candidate: the exception is caught at the level of the whole
search loop, so the selector abandons the search — discarding any
already-found better candidate — and returns the `base_model(n_constant)`
fallback.  The failure is still never fatal to the caller, since `select`
always returns a model or `None`. -/
theorem fit_failure_falls_back {D : Type} (env : ModelSelector D) :
    (∀ n, env.fitOk n env.thisData = false →
      SelectorBIC.score env n = .error () ∧ SelectorDIC.scoreE env n = .error ()) ∧
    ((∃ n, env.min_n_components ≤ n ∧ n ≤ env.max_n_components ∧
        SelectorBIC.score env n = .error ()) →
      SelectorBIC.select env = env.base_model env.n_constant) ∧
    ((∃ n, env.min_n_components ≤ n ∧ n < env.max_n_components ∧
        SelectorDIC.scoreE env n = .error ()) →
      SelectorDIC.select env = env.base_model env.n_constant) ∧
    ((∃ n, env.min_n_components ≤ n ∧ n ≤ env.max_n_components ∧
        SelectorCV.scoreE env n = .error ()) →
      SelectorCV.select env = env.base_model env.n_constant) := by
  refine ⟨?_, ?_, ?_, ?_⟩
  · intro n hfail
    constructor
    · simp [SelectorBIC.score, ModelSelector.base_model, hfail]
    · simp [SelectorDIC.scoreE, ModelSelector.base_model, hfail]
  · rintro ⟨n, h1, h2, herr⟩
    have hmem : n ∈ env.searchRange := List.mem_range'_1.mpr ⟨h1, by omega⟩
    have hl := bic_loop_error env env.searchRange (.pinf, none) n hmem herr
    simp only [SelectorBIC.select, hl]
  · rintro ⟨n, h1, h2, herr⟩
    have hmem : n ∈ env.dicRange := List.mem_range'_1.mpr ⟨h1, by omega⟩
    have hl := dic_loop_error env env.dicRange (.ninf, none) n hmem herr
    simp only [SelectorDIC.select, hl]
  · rintro ⟨n, h1, h2, herr⟩
    have hmem : n ∈ env.searchRange := List.mem_range'_1.mpr ⟨h1, by omega⟩
    have hl := cv_loop_error env env.searchRange (.ninf, 3) n hmem herr
    simp only [SelectorCV.select, hl]

/-- C4 counterexample: in `envC4` the two-state candidate fits and scores
(BIC value 0), the three-state fit fails, and yet `SelectorBIC.select`
discards the already-found two-state candidate and returns the fallback
model at `n_constant = 9` — the search does not continue past the failure
keeping earlier candidates, contrary to the claim. -/
theorem fit_failure_discards_cex :
    envC4.fitOk 2 envC4.thisData = true ∧
    envC4.fitOk 3 envC4.thisData = false ∧
    SelectorBIC.score envC4 2 = .ok (bicScore envC4 (fun _ => 0) 2, ⟨2, 0⟩) ∧
    SelectorBIC.select envC4 = some ⟨9, 0⟩ ∧
    SelectorBIC.select envC4 ≠ some ⟨2, 0⟩ := by
  refine ⟨rfl, rfl, SelectorBIC.score_eq envC4 (fun _ => 0) 2 rfl rfl, by decide, by decide⟩

/-- C4 witness: applying the fallback theorem at `envC4`, where the fit at
three states fails inside the searched range `[2, 3]`. -/
theorem fit_failure_falls_back_witness :
    SelectorBIC.select envC4 = envC4.base_model envC4.n_constant :=
  (fit_failure_falls_back envC4).2.1 ⟨3, by decide, by decide, by decide⟩

/-- C7 (amended): every strategy's `select` returns `None` or a model whose
state count lies in `[min_n_components, max_n_components]` or equals
`n_constant` (Constant strategy and every exception fallback) — except that
`SelectorCV.select` can additionally return a model with the hard-coded
default of 3 states when its search loop never executes. -/
theorem select_states_in_range {D : Type} (env : ModelSelector D) :
    (∀ mo, SelectorConstant.select env = some mo → mo.n_components = env.n_constant) ∧
    (∀ mo, SelectorBIC.select env = some mo →
      (env.min_n_components ≤ mo.n_components ∧ mo.n_components ≤ env.max_n_components) ∨
        mo.n_components = env.n_constant) ∧
    (∀ mo, SelectorDIC.select env = some mo →
      (env.min_n_components ≤ mo.n_components ∧ mo.n_components ≤ env.max_n_components) ∨
        mo.n_components = env.n_constant) ∧
    (∀ mo, SelectorCV.select env = some mo →
      (env.min_n_components ≤ mo.n_components ∧ mo.n_components ≤ env.max_n_components) ∨
        mo.n_components = env.n_constant ∨ mo.n_components = 3) := by
  refine ⟨?_, ?_, ?_, ?_⟩
  · intro mo h
    exact ModelSelector.base_model_states env env.n_constant mo h
  · intro mo h
    rw [SelectorBIC.select] at h
    cases hl : SelectorBIC.loop env env.searchRange (.pinf, none) with
    | error e =>
        rw [hl] at h
        exact Or.inr (ModelSelector.base_model_states env env.n_constant mo h)
    | ok acc =>
        rw [hl] at h
        have h2 : acc.2 = some mo := h
        rcases bic_loop_model env env.searchRange _ acc hl with h3 | ⟨n, hn, h3⟩
        · rw [h2] at h3
          exact Option.noConfusion h3
        · rw [h2] at h3
          injection h3 with h4
          subst h4
          have hb := List.mem_range'_1.mp hn
          exact Or.inl ⟨hb.1, show n ≤ env.max_n_components by omega⟩
  · intro mo h
    rw [SelectorDIC.select] at h
    cases hl : SelectorDIC.loop env env.dicRange (.ninf, none) with
    | error e =>
        rw [hl] at h
        exact Or.inr (ModelSelector.base_model_states env env.n_constant mo h)
    | ok acc =>
        rw [hl] at h
        have h2 : acc.2 = some mo := h
        rcases dic_loop_model env env.dicRange _ acc hl with h3 | ⟨n, hn, h3⟩
        · rw [h2] at h3
          exact Option.noConfusion h3
        · rw [h2] at h3
          injection h3 with h4
          subst h4
          have hb := List.mem_range'_1.mp hn
          exact Or.inl ⟨hb.1, show n ≤ env.max_n_components by omega⟩
  · intro mo h
    rw [SelectorCV.select] at h
    cases hl : SelectorCV.loop env env.searchRange (.ninf, 3) with
    | error e =>
        rw [hl] at h
        exact Or.inr (Or.inl (ModelSelector.base_model_states env env.n_constant mo h))
    | ok acc =>
        rw [hl] at h
        have h2 : env.base_model acc.2 = some mo := h
        have hk := ModelSelector.base_model_states env acc.2 mo h2
        rcases SelectorCV.loop_states env env.searchRange _ acc hl with h3 | h3
        · exact Or.inr (Or.inr (by rw [hk, h3]))
        · have hb := List.mem_range'_1.mp h3
          exact Or.inl (by rw [hk]; exact ⟨hb.1, by omega⟩)

/-- C7 counterexample: in `envC7` the search range `[5, 4]` is empty and
`n_constant = 7`, yet `SelectorCV.select` returns a model with 3 hidden
states — neither inside the configured range, nor the constant fallback,
nor `None`, contradicting the claim as stated. -/
theorem select_states_in_range_cex :
    SelectorCV.select envC7 = some ⟨3, 0⟩ ∧
    ¬ (envC7.min_n_components ≤ 3 ∧ 3 ≤ envC7.max_n_components) ∧
    3 ≠ envC7.n_constant := by
  refine ⟨by decide, by decide, by decide⟩

/-- C7 witness: the amended range theorem applied to `envC7`, whose CV
selection returns the hard-coded 3-state model. -/
theorem select_states_in_range_witness :
    (envC7.min_n_components ≤ (3 : ℕ) ∧ (3 : ℕ) ≤ envC7.max_n_components) ∨
      (3 : ℕ) = envC7.n_constant ∨ (3 : ℕ) = 3 :=
  (select_states_in_range envC7).2.2.2 ⟨3, 0⟩ (by decide)

/-- C8: `SelectorBIC.select` is deterministic: two runs on identical inputs
(the same word data, vocabulary, configuration and `random_state`, hence the
same fit/score oracles) return equal results and select the same state
count.  Determinism holds because the embedding is a pure function of the
selector state, mirroring the deterministic trainer contract at a fixed
seed. -/
theorem bic_select_deterministic {D : Type} (e1 e2 : ModelSelector D) (h : e1 = e2) :
    SelectorBIC.select e1 = SelectorBIC.select e2 ∧
    Option.map GaussianHMM.n_components (SelectorBIC.select e1)
      = Option.map GaussianHMM.n_components (SelectorBIC.select e2) := by
  subst h
  exact ⟨rfl, rfl⟩

/-- C8 witness: two runs on the concrete environment `envC8` agree. -/
theorem bic_select_deterministic_witness :
    SelectorBIC.select envC8 = SelectorBIC.select envC8 ∧
    Option.map GaussianHMM.n_components (SelectorBIC.select envC8)
      = Option.map GaussianHMM.n_components (SelectorBIC.select envC8) :=
  bic_select_deterministic envC8 envC8 rfl

/-! ### Recognizer lemmas -/

theorem recognize_fold {μ D : Type} (sc : μ → D → Option ℚ) (models : List (String × μ)) :
    ∀ (ts : List D) (acc : List (List (String × EFloat)) × List (Option String)),
      ts.foldl (fun acc x =>
        let r := recognizeItem sc models x
        (acc.1 ++ [r.1], acc.2 ++ [r.2.2])) acc
      = (acc.1 ++ ts.map (fun x => (recognizeItem sc models x).1),
         acc.2 ++ ts.map (fun x => (recognizeItem sc models x).2.2)) := by
  intro ts
  induction ts with
  | nil => intro acc; simp
  | cons x rest ih =>
      intro acc
      rw [List.foldl_cons, ih]
      simp

theorem recognize_eq_map {μ D : Type} (sc : μ → D → Option ℚ)
    (models : List (String × μ)) (ts : List D) :
    recognize sc models ts
      = (ts.map (fun x => (recognizeItem sc models x).1),
         ts.map (fun x => (recognizeItem sc models x).2.2)) := by
  simp only [recognize]
  rw [recognize_fold]
  simp

theorem recognizeItem_table {μ D : Type} (sc : μ → D → Option ℚ) (x : D) :
    ∀ (models : List (String × μ)) (acc : List (String × EFloat) × EFloat × Option String),
      (models.foldl (recogStep sc x) acc).1 = acc.1 ++ models.map (entryOf sc x) := by
  intro models
  induction models with
  | nil => intro acc; simp
  | cons wm rest ih =>
      intro acc
      obtain ⟨tbl, best, bg⟩ := acc
      rw [List.foldl_cons]
      rcases hsc : sc wm.2 x with _ | s
      · rw [show recogStep sc x (tbl, best, bg) wm = (tbl ++ [(wm.1, .ninf)], best, bg)
          from by simp [recogStep, hsc]]
        rw [ih]
        simp [entryOf, hsc]
      · rw [show recogStep sc x (tbl, best, bg) wm
            = if EFloat.lt best (.fin s) then (tbl ++ [(wm.1, .fin s)], .fin s, some wm.1)
              else (tbl ++ [(wm.1, .fin s)], best, bg) from by simp [recogStep, hsc]]
        split
        · rw [ih]; simp [entryOf, hsc]
        · rw [ih]; simp [entryOf, hsc]

theorem recognizeItem_guess {μ D : Type} (sc : μ → D → Option ℚ) (x : D) :
    ∀ (models : List (String × μ)) (acc : List (String × EFloat) × EFloat × Option String),
      (models.foldl (recogStep sc x) acc).2.2 = acc.2.2 ∨
      ∃ p ∈ models, (sc p.2 x).isSome = true ∧
        (models.foldl (recogStep sc x) acc).2.2 = some p.1 := by
  intro models
  induction models with
  | nil => intro acc; exact Or.inl rfl
  | cons wm rest ih =>
      intro acc
      obtain ⟨tbl, best, bg⟩ := acc
      rw [List.foldl_cons]
      rcases hsc : sc wm.2 x with _ | s
      · rw [show recogStep sc x (tbl, best, bg) wm = (tbl ++ [(wm.1, .ninf)], best, bg)
          from by simp [recogStep, hsc]]
        rcases ih (tbl ++ [(wm.1, .ninf)], best, bg) with h | ⟨p, hp, hps, hpe⟩
        · exact Or.inl h
        · exact Or.inr ⟨p, List.mem_cons_of_mem wm hp, hps, hpe⟩
      · rw [show recogStep sc x (tbl, best, bg) wm
            = if EFloat.lt best (.fin s) then (tbl ++ [(wm.1, .fin s)], .fin s, some wm.1)
              else (tbl ++ [(wm.1, .fin s)], best, bg) from by simp [recogStep, hsc]]
        split
        · rcases ih (tbl ++ [(wm.1, .fin s)], .fin s, some wm.1) with h | ⟨p, hp, hps, hpe⟩
          · exact Or.inr ⟨wm, List.mem_cons_self wm rest, by simp [hsc], h⟩
          · exact Or.inr ⟨p, List.mem_cons_of_mem wm hp, hps, hpe⟩
        · rcases ih (tbl ++ [(wm.1, .fin s)], best, bg) with h | ⟨p, hp, hps, hpe⟩
          · exact Or.inl h
          · exact Or.inr ⟨p, List.mem_cons_of_mem wm hp, hps, hpe⟩

theorem recognizeItem_allfail {μ D : Type} (sc : μ → D → Option ℚ) (x : D) :
    ∀ (models : List (String × μ)) (acc : List (String × EFloat) × EFloat × Option String),
      (∀ p ∈ models, sc p.2 x = none) →
      (models.foldl (recogStep sc x) acc).2 = acc.2 := by
  intro models
  induction models with
  | nil => intro acc h; rfl
  | cons wm rest ih =>
      intro acc h
      obtain ⟨tbl, best, bg⟩ := acc
      rw [List.foldl_cons]
      have hsc := h wm (List.mem_cons_self wm rest)
      rw [show recogStep sc x (tbl, best, bg) wm = (tbl ++ [(wm.1, .ninf)], best, bg)
        from by simp [recogStep, hsc]]
      exact ih _ (fun p hp => h p (List.mem_cons_of_mem wm hp))

theorem key_nodup_eq {α : Type} :
    ∀ (l : List (String × α)), (l.map Prod.fst).Nodup →
      ∀ (w : String) (a b : α), (w, a) ∈ l → (w, b) ∈ l → a = b := by
  intro l
  induction l with
  | nil => intro _ w a b ha; cases ha
  | cons p rest ih =>
      intro hnd w a b ha hb
      rw [List.map_cons, List.nodup_cons] at hnd
      rcases List.mem_cons.mp ha with ha1 | ha2 <;> rcases List.mem_cons.mp hb with hb1 | hb2
      · rw [← hb1] at ha1
        injection ha1 with h1 h2
      · exfalso
        apply hnd.1
        rw [← (congrArg Prod.fst ha1 : (w, a).1 = p.1)]
        exact List.mem_map.mpr ⟨(w, b), hb2, rfl⟩
      · exfalso
        apply hnd.1
        rw [← (congrArg Prod.fst hb1 : (w, b).1 = p.1)]
        exact List.mem_map.mpr ⟨(w, a), ha2, rfl⟩
      · exact ih hnd.2 w a b ha2 hb2

theorem recognizeItem_lookup {μ D : Type} (sc : μ → D → Option ℚ) (x : D) :
    ∀ (models : List (String × μ)), (models.map Prod.fst).Nodup →
      ∀ (w : String) (m : μ), (w, m) ∈ models → sc m x = none →
      (models.map (entryOf sc x)).lookup w = some EFloat.ninf := by
  intro models
  induction models with
  | nil => intro _ w m hm; cases hm
  | cons p rest ih =>
      intro hnd w m hmem hfail
      rw [List.map_cons, List.nodup_cons] at hnd
      rw [List.map_cons]
      by_cases hw : w = p.1
      · have hpm : p = (w, m) := by
          rcases List.mem_cons.mp hmem with h1 | h2
          · exact h1.symm
          · exfalso
            apply hnd.1
            rw [← hw]
            exact List.mem_map.mpr ⟨(w, m), h2, rfl⟩
        subst hpm
        rw [show entryOf sc x (w, m) = (w, EFloat.ninf) from by simp [entryOf, hfail]]
        simp [List.lookup]
      · have hmem2 : (w, m) ∈ rest := by
          rcases List.mem_cons.mp hmem with h1 | h2
          · exact absurd (congrArg Prod.fst h1 : (w, m).1 = p.1) hw
          · exact h2
        obtain ⟨p1, p2⟩ := p
        have hbeq : (w == p1) = false := beq_eq_false_iff_ne.mpr hw
        rcases hsc : sc p2 x with _ | s
        · rw [show entryOf sc x (p1, p2) = (p1, EFloat.ninf) from by simp [entryOf, hsc]]
          simp only [List.lookup, hbeq]
          exact ih hnd.2 w m hmem2 hfail
        · rw [show entryOf sc x (p1, p2) = (p1, EFloat.fin s) from by simp [entryOf, hsc]]
          simp only [List.lookup, hbeq]
          exact ih hnd.2 w m hmem2 hfail

/-- C5: if the model of word `w` raises while scoring the `i`-th test item,
`recognize` records the negative-infinity sentinel as `w`'s entry in that
item's score table, `w` is never that item's guess, and if every model fails
on the item the guess is `None`. -/
theorem recognize_failed_word {μ D : Type} (sc : μ → D → Option ℚ)
    (models : List (String × μ)) (ts : List D) (i : ℕ) (x : D) (w : String) (m : μ)
    (hnd : (models.map Prod.fst).Nodup)
    (hx : ts[i]? = some x)
    (hwm : (w, m) ∈ models)
    (hfail : sc m x = none) :
    ∃ tbl g, (recognize sc models ts).1[i]? = some tbl ∧
      (recognize sc models ts).2[i]? = some g ∧
      tbl.lookup w = some EFloat.ninf ∧
      g ≠ some w ∧
      ((∀ p ∈ models, sc p.2 x = none) → g = none) := by
  refine ⟨(recognizeItem sc models x).1, (recognizeItem sc models x).2.2,
    ?_, ?_, ?_, ?_, ?_⟩
  · rw [recognize_eq_map]
    simp [hx]
  · rw [recognize_eq_map]
    simp [hx]
  · have htab : (recognizeItem sc models x).1 = models.map (entryOf sc x) := by
      rw [show (recognizeItem sc models x).1
        = (models.foldl (recogStep sc x) ([], .ninf, none)).1 from rfl]
      rw [recognizeItem_table]
      simp
    rw [htab]
    exact recognizeItem_lookup sc x models hnd w m hwm hfail
  · intro hg
    rcases recognizeItem_guess sc x models ([], .ninf, none) with h | ⟨p, hp, hps, hpe⟩
    · rw [show (recognizeItem sc models x).2.2
        = (models.foldl (recogStep sc x) ([], .ninf, none)).2.2 from rfl, h] at hg
      cases hg
    · have hpw : p.1 = w := by
        rw [show (recognizeItem sc models x).2.2
          = (models.foldl (recogStep sc x) ([], .ninf, none)).2.2 from rfl, hpe] at hg
        injection hg
      have hp2 : (w, p.2) ∈ models := by
        rw [← hpw, Prod.mk.eta]
        exact hp
      have hab : p.2 = m := key_nodup_eq models hnd w p.2 m hp2 hwm
      rw [hab, hfail] at hps
      cases hps
  · intro hall
    have h := recognizeItem_allfail sc x models ([], .ninf, none) hall
    exact (congrArg Prod.snd h : (recognizeItem sc models x).2.2 = none)

/-- C5 witness: word "A"'s model fails on the single test item of `tsC5`,
so its table entry is the sentinel and the guess is "B", not "A". -/
theorem recognize_failed_word_witness :
    ∃ tbl g, (recognize scC5 modelsC5 tsC5).1[0]? = some tbl ∧
      (recognize scC5 modelsC5 tsC5).2[0]? = some g ∧
      tbl.lookup "A" = some EFloat.ninf ∧
      g ≠ some "A" ∧
      ((∀ p ∈ modelsC5, scC5 p.2 7 = none) → g = none) :=
  recognize_failed_word scC5 modelsC5 tsC5 0 7 "A" 0 (by decide) rfl (by decide) rfl

/-- C6: for every model mapping and test set, `recognize` returns two lists
whose lengths both equal the number of test items, with the `i`-th score
table and the `i`-th guess computed from the `i`-th test item in test-set
iteration order; being a pure function, its only effect is building and
returning these two lists. -/
theorem recognize_shape {μ D : Type} (sc : μ → D → Option ℚ)
    (models : List (String × μ)) (ts : List D) :
    (recognize sc models ts).1.length = ts.length ∧
    (recognize sc models ts).2.length = ts.length ∧
    (recognize sc models ts).1 = ts.map (fun x => (recognizeItem sc models x).1) ∧
    (recognize sc models ts).2 = ts.map (fun x => (recognizeItem sc models x).2.2) := by
  rw [recognize_eq_map]
  exact ⟨by simp, by simp, rfl, rfl⟩
